import Mathlib

/-! # accel.c: step counting from accelerometer samples

A shallow embedding of the numeric core of `accel.c`.

Modelling conventions.

* A C `double` is an element of a carrier type `α`.  Each function asks of `α`
  only the operations it uses (`+`, `*`, `-`, `/`, `<`, the constant `0`), so
  the structural theorems hold for every interpretation of these operations.
  Theorems that rest on laws of arithmetic say which laws they assume (an
  additive monoid, a linearly ordered ring, the real numbers): there a
  `double` is read as an exact number and rounding is not modelled.
* A C array passed as pointer and length is a `List α`.  A read outside the
  array, undefined in C, yields `0` in the model (`List.getD`), and a write
  outside the array is dropped (`List.set`); the theorems assume the lengths
  under which every access is in range.
* A function that writes through a pointer returns the new contents next to
  its return value.
* Loop counters and array sizes are natural numbers: the `int` counters of the
  source stay below the bounds they are compared with.
* `sqrt` of `math.h` is a parameter of the functions that call it.
* A field gives `x / 0` a finite value and a `double` does not.  The theorems
  over a field therefore assume nonzero divisors, and the behaviour at a zero
  divisor is stated over `XDouble K`, the finite values of `K` with the
  infinities and NaN of IEEE 754.
-/

namespace Accel

/-! ## Vector math functions -/

/-- The C `struct vec3`: a simple 3D vector. -/
structure vec3 (α : Type) where
  x : α
  y : α
  z : α

section VectorMath

variable {α : Type}

/-- The loop `while(n--) { s.x += v->x; s.y += v->y; s.z += v->z; v++; }` of
`sum`, from the accumulator `s`. -/
def sum_loop [Add α] : vec3 α → List (vec3 α) → vec3 α
  | s, [] => s
  | s, v :: vs => sum_loop ⟨s.x + v.x, s.y + v.y, s.z + v.z⟩ vs

/-- Componentwise `sum(v, n)` of an array of vectors; the accumulator starts
as `struct vec3 s = {}`. -/
def sum [Zero α] [Add α] (v : List (vec3 α)) : vec3 α :=
  sum_loop ⟨0, 0, 0⟩ v

/-- Magnitude `mag(v) = sqrt(v.x * v.x + v.y * v.y + v.z * v.z)`. -/
def mag [Add α] [Mul α] (sqrt : α → α) (v : vec3 α) : α :=
  sqrt (v.x * v.x + v.y * v.y + v.z * v.z)

/-- Componentwise product `scale(v, a)` of a vector with a scalar. -/
def scale [Mul α] (v : vec3 α) (a : α) : vec3 α :=
  ⟨v.x * a, v.y * a, v.z * a⟩

/-- Dot product `dot(a, b)`. -/
def dot [Add α] [Mul α] (a b : vec3 α) : α :=
  a.x * b.x + a.y * b.y + a.z * b.z

/-- The loop `while(n--) { double x = *data++; ss += x * x; }` of `rms`, from
the accumulator `ss`. -/
def rms_loop [Add α] [Mul α] : α → List α → α
  | ss, [] => ss
  | ss, x :: xs => rms_loop (ss + x * x) xs

/-- Root mean square `rms(data, size)`: `sqrt(ss / size)` with `ss` the sum of
the squares, accumulated from `0`, and `size` converted to `double`. -/
def rms [Zero α] [Add α] [Mul α] [Div α] [NatCast α] (sqrt : α → α) (data : List α) : α :=
  sqrt (rms_loop 0 data / (data.length : α))

/-- The gravity estimate of `main`:
`s = sum(data, data_len); m = mag(s); g = scale(s, 1/m);`. -/
def main_gravity [Zero α] [One α] [Add α] [Mul α] [Div α] (sqrt : α → α)
    (data : List (vec3 α)) : vec3 α :=
  let s := sum data
  let m := mag sqrt s
  scale s (1 / m)

/-- The loop `for(int i = 0; i < data_len; i++) vert[i] = dot(data[i], g);` of
`main`: the samples written to `vert`. -/
def main_vert [Add α] [Mul α] (g : vec3 α) : List (vec3 α) → List α
  | [] => []
  | d :: ds => dot d g :: main_vert g ds

end VectorMath

/-! ## Filtering functions -/

section Tdf2

variable {α : Type} [Zero α] [Add α] [Mul α] [Sub α]

/-- The loop `for(int i = 1; i < ord; i++) z[i-1] = b[i] * x + z[i] - a[i] * y;`
of `tdf2`.  The first argument counts the iterations still to run, the second is
the counter `i`. -/
def tdf2_loop (a b : List α) (x y : α) : Nat → Nat → List α → List α
  | 0, _, z => z
  | n + 1, i, z =>
      tdf2_loop a b x y n (i + 1)
        (z.set (i - 1) (b.getD i 0 * x + z.getD i 0 - a.getD i 0 * y))

/-- Transposed direct form II step `tdf2(ord, a, b, z, x)`: the returned sample
and the contents of `z` after the call. -/
def tdf2 (ord : Nat) (a b z : List α) (x : α) : α × List α :=
  if ord = 0 then (b.getD 0 0 * x, z)
  else
    let y := b.getD 0 0 * x + z.getD 0 0
    let z1 := tdf2_loop a b x y (ord - 1) 1 z
    (y, z1.set (ord - 1) (b.getD ord 0 * x - a.getD ord 0 * y))

/-- The loop `for(int i = 0; i < size; i++) *y++ = tdf2(8, a, b, z, *x++);` of
`filter`: the samples written to `y`, from the state `z`. -/
def filter_loop (a b : List α) : List α → List α → List α
  | _, [] => []
  | z, x :: xs => (tdf2 8 a b z x).1 :: filter_loop a b (tdf2 8 a b z x).2 xs

/-- Running `tdf2` of order `ord` sample by sample over an input sequence, each
call on the state the previous one left: the samples returned, from the state
`z`. -/
def tdf2_run (ord : Nat) (a b : List α) : List α → List α → List α
  | _, [] => []
  | z, x :: xs =>
      (tdf2 ord a b z x).1 :: tdf2_run ord a b (tdf2 ord a b z x).2 xs

end Tdf2

section Filter

variable {α : Type} [Zero α] [One α] [Add α] [Mul α] [Sub α] [Neg α] [OfScientific α]

/-- The feed-forward coefficients `b[9]` of `filter`. -/
def filter_b : List α :=
  [0.00482434, 0, -0.01929737, 0, 0.02894606, 0, -0.01929737, 0, 0.00482434]

/-- The feedback coefficients `a[9]` of `filter`. -/
def filter_a : List α :=
  [1, -5.41823139, 13.5293587, -20.31926512, 20.07119886, -13.34437166,
    5.83210677, -1.53473005, 0.18737949]

/-- The preset state `z[8]` of `filter`. -/
def filter_z : List α :=
  [-0.00482434, -0.00482434, 0.01447303, 0.01447303, -0.01447303, -0.01447303,
    0.00482434, 0.00482434]

/-- The band-pass `filter(x, size, y)`: the contents of `y` after the call.  The
state `z` is a local array, initialised at every call. -/
def filter (x : List α) : List α :=
  filter_loop filter_a filter_b filter_z x

/-- The state reached from the preset state of `filter` by successive order-8
`tdf2` steps on the samples of `x`, in order. -/
def filter_state (x : List α) : List α :=
  x.foldl (fun z v => (tdf2 8 filter_a filter_b z v).2) filter_z

end Filter

/-! ## Step counting -/

/-- The local `enum { UP = 0, DOWN } state` of `count_steps`. -/
inductive State where
  | UP
  | DOWN
  deriving DecidableEq, Repr

section CountSteps

variable {α : Type} [LT α] [DecidableRel (fun (u w : α) => u < w)]

/-- The loop `while(n--) { double v = *x++; switch(state) ... }` of
`count_steps`, from the given `state` and `cnt`. -/
def count_steps_loop (hi lo : α) : List α → State → Nat → Nat
  | [], _, cnt => cnt
  | v :: xs, State.UP, cnt =>
      if v > hi then count_steps_loop hi lo xs State.DOWN cnt
      else count_steps_loop hi lo xs State.UP cnt
  | v :: xs, State.DOWN, cnt =>
      if v < lo then count_steps_loop hi lo xs State.UP (cnt + 1)
      else count_steps_loop hi lo xs State.DOWN cnt

/-- The threshold based counting function `count_steps(x, size, hi, lo)`. -/
def count_steps (x : List α) (hi lo : α) : Nat :=
  count_steps_loop hi lo x State.UP 0

/-- The two states of the step counter as the specification names them. -/
inductive SpecState where
  | AboveWaiting
  | BelowWaiting
  deriving DecidableEq, Repr

/-- The transition of the specification's step counter on one value `v`: in
`AboveWaiting` a value above `hi` moves to `BelowWaiting`, in `BelowWaiting` a
value below `lo` moves to `AboveWaiting` and adds one to the count, and every
other value changes nothing. -/
def spec_transition (hi lo : α) (c : SpecState × Nat) (v : α) : SpecState × Nat :=
  match c.1 with
  | SpecState.AboveWaiting => if v > hi then (SpecState.BelowWaiting, c.2) else c
  | SpecState.BelowWaiting => if v < lo then (SpecState.AboveWaiting, c.2 + 1) else c

/-- The count of the specification's step counter: the transition folded over
the sequence from `(AboveWaiting, 0)`. -/
def spec_count (x : List α) (hi lo : α) : Nat :=
  (x.foldl (spec_transition hi lo) (SpecState.AboveWaiting, 0)).2

/-- The specification's non-overlapping high-then-low excursions of `x`: the
pairs `(i_1, j_1), ..., (i_k, j_k)` of `ps` are pairs of indices of `x` with
`i_1 < j_1 < i_2 < j_2 < ... < i_k < j_k`, `x[i_m] > hi` and `x[j_m] < lo`. -/
def excursions (hi lo : α) (x : List α) (ps : List (Nat × Nat)) : Prop :=
  ps.Pairwise (fun p q => p.2 < q.1) ∧
  ∀ p ∈ ps, p.1 < p.2 ∧ ∃ u w, x[p.1]? = some u ∧ x[p.2]? = some w ∧ u > hi ∧ w < lo

end CountSteps

/-! ## The main function -/

/-- The values `main` computes from the samples it has read. -/
structure main_values (α : Type) where
  g : vec3 α
  vert : List α
  filtered : List α
  rms_val : α
  threshold : α
  cnt : Nat

section Main

variable {α : Type} [Zero α] [One α] [Add α] [Mul α] [Sub α] [Neg α] [Div α]
  [NatCast α] [OfScientific α] [LT α] [DecidableRel (fun (u w : α) => u < w)]

/-- The body of `main` after the samples `data` are read: the gravity vector,
the vertical acceleration, the filtered signal, its rms, the threshold
`rms_val * 0.5` and the count `count_steps(filtered, data_len, threshold,
-threshold)`. -/
def main (sqrt : α → α) (data : List (vec3 α)) : main_values α :=
  let g := main_gravity sqrt data
  let vert := main_vert g data
  let filtered := filter vert
  let rms_val := rms sqrt filtered
  let threshold := rms_val * 0.5
  let cnt := count_steps filtered threshold (-threshold)
  ⟨g, vert, filtered, rms_val, threshold, cnt⟩

end Main

/-! ## Doubles with infinities and NaN

The operations of a field give `x / 0` a finite value, and a `double` does
not.  `XDouble K` adds to the exact finite values of `K` the two infinities and
NaN, with the arithmetic IEEE 754 gives them; finite results stay exact
(no rounding, no overflow), and the two zeros are one value, taken as `+0`
when it divides. -/

/-- A `double`: a finite value held exactly, `+inf`, `-inf` or NaN. -/
inductive XDouble (K : Type) where
  | fin (q : K)
  | pinf
  | ninf
  | nan
  deriving DecidableEq, Repr

section XDoubleOps

variable {K : Type} [LinearOrderedField K]

/-- The product of the finite value `q` with `+inf`: NaN for `0`, else the
infinity with the sign of `q`. -/
def XDouble.infmul (q : K) : XDouble K :=
  if q = 0 then XDouble.nan else if 0 < q then XDouble.pinf else XDouble.ninf

/-- Unary minus `-x`. -/
def XDouble.neg : XDouble K → XDouble K
  | XDouble.fin q => XDouble.fin (-q)
  | XDouble.pinf => XDouble.ninf
  | XDouble.ninf => XDouble.pinf
  | XDouble.nan => XDouble.nan

/-- Addition: `inf + (-inf)` and every sum with NaN are NaN. -/
def XDouble.add : XDouble K → XDouble K → XDouble K
  | XDouble.fin p, XDouble.fin q => XDouble.fin (p + q)
  | XDouble.fin _, XDouble.pinf => XDouble.pinf
  | XDouble.fin _, XDouble.ninf => XDouble.ninf
  | XDouble.pinf, XDouble.fin _ => XDouble.pinf
  | XDouble.pinf, XDouble.pinf => XDouble.pinf
  | XDouble.pinf, XDouble.ninf => XDouble.nan
  | XDouble.ninf, XDouble.fin _ => XDouble.ninf
  | XDouble.ninf, XDouble.pinf => XDouble.nan
  | XDouble.ninf, XDouble.ninf => XDouble.ninf
  | XDouble.nan, _ => XDouble.nan
  | _, XDouble.nan => XDouble.nan

/-- Multiplication: `0 * inf` and every product with NaN are NaN. -/
def XDouble.mul : XDouble K → XDouble K → XDouble K
  | XDouble.fin p, XDouble.fin q => XDouble.fin (p * q)
  | XDouble.fin p, XDouble.pinf => XDouble.infmul p
  | XDouble.fin p, XDouble.ninf => XDouble.infmul (-p)
  | XDouble.pinf, XDouble.fin q => XDouble.infmul q
  | XDouble.ninf, XDouble.fin q => XDouble.infmul (-q)
  | XDouble.pinf, XDouble.pinf => XDouble.pinf
  | XDouble.pinf, XDouble.ninf => XDouble.ninf
  | XDouble.ninf, XDouble.pinf => XDouble.ninf
  | XDouble.ninf, XDouble.ninf => XDouble.pinf
  | XDouble.nan, _ => XDouble.nan
  | _, XDouble.nan => XDouble.nan

/-- Division: a nonzero finite value over `0` is an infinity, `0 / 0` and
`inf / inf` are NaN, a finite value over an infinity is `0`. -/
def XDouble.div : XDouble K → XDouble K → XDouble K
  | XDouble.fin p, XDouble.fin q => if q = 0 then XDouble.infmul p else XDouble.fin (p / q)
  | XDouble.fin _, XDouble.pinf => XDouble.fin 0
  | XDouble.fin _, XDouble.ninf => XDouble.fin 0
  | XDouble.pinf, XDouble.fin q => if 0 ≤ q then XDouble.pinf else XDouble.ninf
  | XDouble.ninf, XDouble.fin q => if 0 ≤ q then XDouble.ninf else XDouble.pinf
  | XDouble.pinf, XDouble.pinf => XDouble.nan
  | XDouble.pinf, XDouble.ninf => XDouble.nan
  | XDouble.ninf, XDouble.pinf => XDouble.nan
  | XDouble.ninf, XDouble.ninf => XDouble.nan
  | XDouble.nan, _ => XDouble.nan
  | _, XDouble.nan => XDouble.nan

/-- The `sqrt` of `math.h` over a square root `f` of the finite values: NaN
for a negative value, for `-inf` and for NaN, and `+inf` for `+inf`. -/
def XDouble.sqrt (f : K → K) : XDouble K → XDouble K
  | XDouble.fin q => if q < 0 then XDouble.nan else XDouble.fin (f q)
  | XDouble.pinf => XDouble.pinf
  | XDouble.ninf => XDouble.nan
  | XDouble.nan => XDouble.nan

/-- The comparison `x < y`: false whenever `x` or `y` is NaN. -/
def XDouble.blt : XDouble K → XDouble K → Bool
  | XDouble.fin p, XDouble.fin q => decide (p < q)
  | XDouble.fin _, XDouble.pinf => true
  | XDouble.ninf, XDouble.fin _ => true
  | XDouble.ninf, XDouble.pinf => true
  | _, _ => false

/-- The comparison `x <= y`: false whenever `x` or `y` is NaN. -/
def XDouble.ble : XDouble K → XDouble K → Bool
  | XDouble.fin p, XDouble.fin q => decide (p ≤ q)
  | XDouble.fin _, XDouble.pinf => true
  | XDouble.ninf, XDouble.fin _ => true
  | XDouble.ninf, XDouble.pinf => true
  | XDouble.pinf, XDouble.pinf => true
  | XDouble.ninf, XDouble.ninf => true
  | _, _ => false

instance : Zero (XDouble K) := ⟨XDouble.fin 0⟩

instance : One (XDouble K) := ⟨XDouble.fin 1⟩

instance : NatCast (XDouble K) := ⟨fun n => XDouble.fin (n : K)⟩

instance : OfScientific (XDouble K) :=
  ⟨fun m s e => XDouble.fin (OfScientific.ofScientific m s e)⟩

instance : Neg (XDouble K) := ⟨XDouble.neg⟩

instance : Add (XDouble K) := ⟨XDouble.add⟩

instance : Mul (XDouble K) := ⟨XDouble.mul⟩

instance : Sub (XDouble K) := ⟨fun x y => XDouble.add x (XDouble.neg y)⟩

instance : Div (XDouble K) := ⟨XDouble.div⟩

instance : LT (XDouble K) := ⟨fun x y => XDouble.blt x y = true⟩

instance : LE (XDouble K) := ⟨fun x y => XDouble.ble x y = true⟩

instance : DecidableRel (fun (x y : XDouble K) => x < y) :=
  fun x y => inferInstanceAs (Decidable (XDouble.blt x y = true))

instance : DecidableRel (fun (x y : XDouble K) => x ≤ y) :=
  fun x y => inferInstanceAs (Decidable (XDouble.ble x y = true))

/-- A vector of finite values as a vector of doubles. -/
def vec3.toXDouble (v : vec3 K) : vec3 (XDouble K) :=
  ⟨XDouble.fin v.x, XDouble.fin v.y, XDouble.fin v.z⟩

end XDoubleOps

/-! ## The transposed direct form II step -/

section Tdf2Theorems

variable {α : Type} [Zero α]

theorem getD_set (z : List α) (i k : Nat) (v : α) :
    (z.set i v).getD k 0 = if i = k ∧ k < z.length then v else z.getD k 0 := by
  simp only [List.getD_eq_getElem?_getD, List.getElem?_set]
  by_cases h : i = k
  · subst h
    by_cases hk : i < z.length
    · simp [hk]
    · simp [hk, List.getElem?_eq_none (Nat.le_of_not_lt hk)]
  · simp [h]

variable [Add α] [Mul α] [Sub α]

theorem tdf2_loop_length (a b : List α) (x y : α) (n : Nat) :
    ∀ (i : Nat) (z : List α), (tdf2_loop a b x y n i z).length = z.length := by
  induction n with
  | zero => intro i z; rfl
  | succ n ih => intro i z; simp [tdf2_loop, ih]

/-- The loop of `tdf2` started at counter `i` with `n` iterations to run
rewrites exactly the cells `i-1 .. i+n-2`, each from the cell above it as it was
when the loop started. -/
theorem tdf2_loop_getD (a b : List α) (x y : α) (n : Nat) :
    ∀ (i : Nat) (z : List α) (k : Nat), 1 ≤ i →
      (tdf2_loop a b x y n i z).getD k 0 =
        if i - 1 ≤ k ∧ k < i - 1 + n ∧ k < z.length then
          b.getD (k + 1) 0 * x + z.getD (k + 1) 0 - a.getD (k + 1) 0 * y
        else z.getD k 0 := by
  induction n with
  | zero =>
    intro i z k _
    have h : ¬ (i - 1 ≤ k ∧ k < i - 1 + 0 ∧ k < z.length) := by omega
    rw [tdf2_loop, if_neg h]
  | succ n ih =>
    intro i z k hi
    rw [tdf2_loop, ih (i + 1) _ k (by omega)]
    simp only [List.length_set, getD_set, Nat.add_sub_cancel]
    by_cases h1 : i ≤ k ∧ k < i + n ∧ k < z.length
    · have h2 : i - 1 ≤ k ∧ k < i - 1 + (n + 1) ∧ k < z.length := by omega
      have h3 : ¬ (i - 1 = k + 1 ∧ k + 1 < z.length) := by omega
      rw [if_pos h1, if_pos h2, if_neg h3]
    · rw [if_neg h1]
      by_cases h4 : i - 1 = k ∧ k < z.length
      · have h2 : i - 1 ≤ k ∧ k < i - 1 + (n + 1) ∧ k < z.length := by omega
        have h5 : k + 1 = i := by omega
        rw [if_pos h4, if_pos h2, h5]
      · have h2 : ¬ (i - 1 ≤ k ∧ k < i - 1 + (n + 1) ∧ k < z.length) := by omega
        rw [if_neg h4, if_neg h2]

/-- C1: for every order `K ≥ 1`, coefficient arrays `a`, `b` of length `K+1`,
state `z` of length `K` and input `x`, one call of `tdf2` returns
`y = b[0]*x + z[0]` and leaves a state `z'` of length `K` with
`z'[i-1] = b[i]*x + z[i] - a[i]*y` for every `i` in `1..K-1`, where `z[i]` is
the value held before the call, and `z'[K-1] = b[K]*x - a[K]*y`. -/
theorem tdf2_step (K : Nat) (a b z : List α) (x : α) (hK : 1 ≤ K)
    (ha : a.length = K + 1) (hb : b.length = K + 1) (hz : z.length = K) :
    (tdf2 K a b z x).1 = b.getD 0 0 * x + z.getD 0 0 ∧
    (tdf2 K a b z x).2.length = K ∧
    (∀ i, 1 ≤ i → i < K →
      (tdf2 K a b z x).2.getD (i - 1) 0 =
        b.getD i 0 * x + z.getD i 0 - a.getD i 0 * (tdf2 K a b z x).1) ∧
    (tdf2 K a b z x).2.getD (K - 1) 0 =
      b.getD K 0 * x - a.getD K 0 * (tdf2 K a b z x).1 := by
  have hK0 : K ≠ 0 := by omega
  refine ⟨?_, ?_, ?_, ?_⟩ <;> simp only [tdf2, if_neg hK0]
  · simp [tdf2_loop_length, hz]
  · intro i hi1 hiK
    rw [getD_set, tdf2_loop_getD _ _ _ _ _ _ _ _ (le_refl 1), tdf2_loop_length]
    have h1 : ¬ (K - 1 = i - 1 ∧ i - 1 < z.length) := by omega
    have h2 : 1 - 1 ≤ i - 1 ∧ i - 1 < 1 - 1 + (K - 1) ∧ i - 1 < z.length := by omega
    rw [if_neg h1, if_pos h2, Nat.sub_add_cancel hi1]
  · rw [getD_set, tdf2_loop_length]
    have h1 : K - 1 = K - 1 ∧ K - 1 < z.length := by omega
    rw [if_pos h1]

/-- The step of C1 at order 3 on integer data: the hypotheses hold, the
conclusion of `tdf2_step` applies at `i = 2`, and the call evaluates to the
sample `47` and the state `[-36, -68, -353]`. -/
theorem tdf2_step_witness :
    tdf2 3 [1, 2, 3, 9] [4, 5, 6, 7] [7, 8, 13] (10 : Int) = (47, [-36, -68, -353]) ∧
    (tdf2 3 [1, 2, 3, 9] [4, 5, 6, 7] [7, 8, 13] (10 : Int)).2.getD (2 - 1) 0 =
      ([4, 5, 6, 7] : List Int).getD 2 0 * 10 + ([7, 8, 13] : List Int).getD 2 0 -
        ([1, 2, 3, 9] : List Int).getD 2 0 *
          (tdf2 3 [1, 2, 3, 9] [4, 5, 6, 7] [7, 8, 13] (10 : Int)).1 :=
  ⟨by decide,
   (tdf2_step 3 [1, 2, 3, 9] [4, 5, 6, 7] [7, 8, 13] (10 : Int) (by decide) rfl rfl rfl).2.2.1
     2 (by decide) (by decide)⟩

/-- C2: for filter order 0, for every `b`, `a`, state `z` and input `x`, `tdf2`
returns exactly `b[0]*x` and leaves the state `z` unchanged. -/
theorem tdf2_order_zero (a b z : List α) (x : α) :
    tdf2 0 a b z x = (b.getD 0 0 * x, z) :=
  rfl

end Tdf2Theorems

/-! ## The band-pass filter -/

section FilterTheorems

variable {α : Type} [Zero α] [Add α] [Mul α] [Sub α]

theorem filter_loop_length (a b : List α) (x : List α) :
    ∀ z : List α, (filter_loop a b z x).length = x.length := by
  induction x with
  | nil => intro z; rfl
  | cons v xs ih => intro z; simp [filter_loop, ih]

/-- The `i`-th sample written by the loop of `filter` is the sample returned by
`tdf2` on `x[i]` from the state that `i` steps lead to. -/
theorem filter_loop_getElem (a b : List α) (x : List α) :
    ∀ (z : List α) (i : Nat) (h : i < x.length),
      (filter_loop a b z x)[i]? =
        some (tdf2 8 a b ((x.take i).foldl (fun s v => (tdf2 8 a b s v).2) z) x[i]).1 := by
  induction x with
  | nil => intro z i h; simp at h
  | cons v xs ih =>
    intro z i h
    cases i with
    | zero => simp [filter_loop]
    | succ j =>
      have hj : j < xs.length := by simpa using h
      simp [filter_loop, ih _ j hj]

end FilterTheorems

section FilterField

variable {α : Type} [Field α]

/-- C3: for every input sequence `x`, `filter x` has the length of `x`, and its
`i`-th element is the sample returned by the order-8 `tdf2` step on `x[i]` from
the state left by the steps on `x[0], ..., x[i-1]`, the first step starting
from the preset state `filter_z`; the state a call starts from does not depend
on earlier calls. -/
theorem filter_steps (x : List α) :
    filter_state ([] : List α) = filter_z ∧
    (filter x).length = x.length ∧
    ∀ (i : Nat) (h : i < x.length),
      (filter x)[i]? =
        some (tdf2 8 filter_a filter_b (filter_state (x.take i)) x[i]).1 :=
  ⟨rfl, filter_loop_length _ _ x _, fun i h => filter_loop_getElem _ _ x _ i h⟩

end FilterField

/-! ## The step counter -/

section CountStepsTheorems

variable {α : Type} [LT α] [DecidableRel (fun (u w : α) => u < w)]

/-- The loop of `count_steps` and the fold of the specification's transition
agree from corresponding configurations. -/
theorem count_steps_loop_eq_foldl (hi lo : α) (x : List α) :
    ∀ cnt : Nat,
      count_steps_loop hi lo x State.UP cnt =
        (x.foldl (spec_transition hi lo) (SpecState.AboveWaiting, cnt)).2 ∧
      count_steps_loop hi lo x State.DOWN cnt =
        (x.foldl (spec_transition hi lo) (SpecState.BelowWaiting, cnt)).2 := by
  induction x with
  | nil => intro cnt; exact ⟨rfl, rfl⟩
  | cons v xs ih =>
    intro cnt
    constructor
    · by_cases h : v > hi
      · simp only [count_steps_loop, List.foldl_cons, spec_transition, if_pos h]
        exact (ih cnt).2
      · simp only [count_steps_loop, List.foldl_cons, spec_transition, if_neg h]
        exact (ih cnt).1
    · by_cases h : v < lo
      · simp only [count_steps_loop, List.foldl_cons, spec_transition, if_pos h]
        exact (ih (cnt + 1)).1
      · simp only [count_steps_loop, List.foldl_cons, spec_transition, if_neg h]
        exact (ih cnt).2

/-- C4: for every sequence `x` and thresholds `hi`, `lo`, `count_steps x hi lo`
is the count component of the fold over `x`, from `(AboveWaiting, 0)`, of the
transition that in `AboveWaiting` moves to `BelowWaiting` on a value above `hi`
without changing the count, in `BelowWaiting` moves to `AboveWaiting` on a value
below `lo` and adds one to the count, and otherwise changes nothing. -/
theorem count_steps_eq_spec_count (x : List α) (hi lo : α) :
    count_steps x hi lo = spec_count x hi lo :=
  (count_steps_loop_eq_foldl hi lo x 0).1

/-- The count never decreases along the loop of `count_steps`. -/
theorem count_steps_loop_ge (hi lo : α) (x : List α) :
    ∀ (st : State) (cnt : Nat), cnt ≤ count_steps_loop hi lo x st cnt := by
  induction x with
  | nil => intro st cnt; cases st <;> exact le_refl _
  | cons v xs ih =>
    intro st cnt
    cases st with
    | UP =>
      by_cases h : v > hi
      · simp only [count_steps_loop, if_pos h]; exact ih _ _
      · simp only [count_steps_loop, if_neg h]; exact ih _ _
    | DOWN =>
      by_cases h : v < lo
      · simp only [count_steps_loop, if_pos h]
        exact Nat.le_of_succ_le (ih State.UP (cnt + 1))
      · simp only [count_steps_loop, if_neg h]; exact ih _ _

/-- From `DOWN`, the count grows exactly when some later value is below `lo`. -/
theorem count_steps_loop_down_pos (hi lo : α) (x : List α) :
    ∀ cnt : Nat, cnt < count_steps_loop hi lo x State.DOWN cnt ↔ ∃ w ∈ x, w < lo := by
  induction x with
  | nil => intro cnt; simp [count_steps_loop]
  | cons v xs ih =>
    intro cnt
    by_cases h : v < lo
    · simp only [count_steps_loop, if_pos h]
      constructor
      · intro _; exact ⟨v, List.mem_cons_self v xs, h⟩
      · intro _; exact count_steps_loop_ge hi lo xs State.UP (cnt + 1)
    · simp only [count_steps_loop, if_neg h, ih cnt, List.mem_cons]
      constructor
      · rintro ⟨w, hw, hlo⟩; exact ⟨w, Or.inr hw, hlo⟩
      · rintro ⟨w, hw | hw, hlo⟩
        · exact absurd (hw ▸ hlo) h
        · exact ⟨w, hw, hlo⟩

/-- From `UP`, the count grows exactly when a value above `hi` is followed,
later in the sequence, by a value below `lo`. -/
theorem count_steps_loop_up_pos (hi lo : α) (x : List α) :
    ∀ cnt : Nat, cnt < count_steps_loop hi lo x State.UP cnt ↔
      ∃ (i j : Nat) (u w : α), i < j ∧ x[i]? = some u ∧ x[j]? = some w ∧ u > hi ∧ w < lo := by
  induction x with
  | nil => intro cnt; simp [count_steps_loop]
  | cons v xs ih =>
    intro cnt
    by_cases h : v > hi
    · simp only [count_steps_loop, if_pos h, count_steps_loop_down_pos]
      constructor
      · rintro ⟨w, hw, hlo⟩
        obtain ⟨j, hj⟩ := List.getElem?_of_mem hw
        exact ⟨0, j + 1, v, w, Nat.succ_pos j, List.getElem?_cons_zero, by simpa using hj, h, hlo⟩
      · rintro ⟨i, j, u, w, hij, _, hw, _, hlo⟩
        cases j with
        | zero => exact absurd hij (Nat.not_lt_zero i)
        | succ j =>
          rw [List.getElem?_cons_succ] at hw
          exact ⟨w, List.getElem?_mem hw, hlo⟩
    · simp only [count_steps_loop, if_neg h, ih cnt]
      constructor
      · rintro ⟨i, j, u, w, hij, hu, hw, hhi, hlo⟩
        exact ⟨i + 1, j + 1, u, w, Nat.succ_lt_succ hij, by simpa using hu,
          by simpa using hw, hhi, hlo⟩
      · rintro ⟨i, j, u, w, hij, hu, hw, hhi, hlo⟩
        cases i with
        | zero =>
          rw [List.getElem?_cons_zero] at hu
          exact absurd ((Option.some.inj hu) ▸ hhi) h
        | succ i =>
          cases j with
          | zero => exact absurd hij (Nat.not_lt_zero _)
          | succ j =>
            rw [List.getElem?_cons_succ] at hu hw
            exact ⟨i, j, u, w, Nat.lt_of_succ_lt_succ hij, hu, hw, hhi, hlo⟩

/-- From `DOWN`, a sequence without a value below `lo` leaves the count as it
is. -/
theorem count_steps_loop_down_const (hi lo : α) (x : List α) (cnt : Nat)
    (h : ∀ w ∈ x, ¬ w < lo) : count_steps_loop hi lo x State.DOWN cnt = cnt := by
  have h1 : ¬ cnt < count_steps_loop hi lo x State.DOWN cnt := by
    rw [count_steps_loop_down_pos]
    rintro ⟨w, hw, hlo⟩
    exact h w hw hlo
  exact Nat.le_antisymm (Nat.le_of_not_lt h1) (count_steps_loop_ge hi lo x State.DOWN cnt)

/-- C7: for every sequence `x` and thresholds `hi`, `lo`, `count_steps x hi lo`
is positive if and only if there are indices `i < j` with `x[i] > hi` and
`x[j] < lo`; hence the count is 0 for a sequence with no element below `lo`,
for one with no element above `hi`, and for one in which every element below
`lo` stands before (or at) every element above `hi`, that is, before the first
of them. -/
theorem count_steps_pos_iff (x : List α) (hi lo : α) :
    (0 < count_steps x hi lo ↔
      ∃ (i j : Nat) (u w : α),
        i < j ∧ x[i]? = some u ∧ x[j]? = some w ∧ u > hi ∧ w < lo) ∧
    ((∀ w ∈ x, ¬ w < lo) → count_steps x hi lo = 0) ∧
    ((∀ u ∈ x, ¬ u > hi) → count_steps x hi lo = 0) ∧
    ((∀ (i j : Nat) (u w : α),
        x[i]? = some u → x[j]? = some w → u > hi → w < lo → j ≤ i) →
      count_steps x hi lo = 0) := by
  have key := count_steps_loop_up_pos hi lo x 0
  refine ⟨key, ?_, ?_, ?_⟩
  · intro h
    apply Nat.eq_zero_of_not_pos
    intro hpos
    obtain ⟨i, j, u, w, _, _, hw, _, hlo⟩ := key.1 hpos
    exact h w (List.getElem?_mem hw) hlo
  · intro h
    apply Nat.eq_zero_of_not_pos
    intro hpos
    obtain ⟨i, j, u, w, _, hu, _, hhi, _⟩ := key.1 hpos
    exact h u (List.getElem?_mem hu) hhi
  · intro h
    apply Nat.eq_zero_of_not_pos
    intro hpos
    obtain ⟨i, j, u, w, hij, hu, hw, hhi, hlo⟩ := key.1 hpos
    exact absurd (h i j u w hu hw hhi hlo) (Nat.not_le_of_lt hij)

end CountStepsTheorems

section CountStepsOrdered

variable {α : Type} [LinearOrderedRing α]

/-- From `UP`, a non-decreasing sequence leaves the count as it is when
`lo ≤ hi`: once a value is above `hi`, no later value is below `lo`. -/
theorem count_steps_loop_up_sorted (hi lo : α) (hle : lo ≤ hi) (x : List α) :
    ∀ cnt : Nat, x.Sorted (· ≤ ·) → count_steps_loop hi lo x State.UP cnt = cnt := by
  induction x with
  | nil => intro cnt _; rfl
  | cons v xs ih =>
    intro cnt hx
    have hxs : xs.Sorted (· ≤ ·) := hx.of_cons
    by_cases h : v > hi
    · simp only [count_steps_loop, if_pos h]
      apply count_steps_loop_down_const
      intro w hw hlo
      have hvw : v ≤ w := List.rel_of_sorted_cons hx w hw
      exact absurd (lt_of_lt_of_le (lt_of_le_of_lt hle h) hvw) (not_lt_of_gt hlo)
    · simp only [count_steps_loop, if_neg h]
      exact ih cnt hxs

/-- C6: for every non-decreasing sequence and every pair of thresholds with
`hi > 0 > lo`, `count_steps` returns 0; this covers the sequence that crosses
`hi` and, being non-decreasing, never drops below `lo` afterwards. -/
theorem count_steps_sorted (x : List α) (hi lo : α) (hx : x.Sorted (· ≤ ·))
    (hhi : hi > 0) (hlo : 0 > lo) : count_steps x hi lo = 0 :=
  count_steps_loop_up_sorted hi lo (le_of_lt (lt_trans hlo hhi)) x 0 hx

/-- The claim of C6 on the integers: `[-5, 0, 3, 7]` is non-decreasing, crosses
`hi = 2`, and counts no step with `lo = -2`. -/
theorem count_steps_sorted_witness :
    ([-5, 0, 3, 7] : List Int).Sorted (· ≤ ·) ∧ (∃ v ∈ ([-5, 0, 3, 7] : List Int), v > 2) ∧
      count_steps ([-5, 0, 3, 7] : List Int) 2 (-2) = 0 :=
  ⟨by decide, ⟨3, by decide, by decide⟩,
    count_steps_sorted ([-5, 0, 3, 7] : List Int) 2 (-2) (by decide) (by decide) (by decide)⟩

end CountStepsOrdered

/-! ## Vector math -/

section SumTheorems

variable {α : Type}

theorem sum_loop_append [Add α] (A B : List (vec3 α)) :
    ∀ s : vec3 α, sum_loop s (A ++ B) = sum_loop (sum_loop s A) B := by
  induction A with
  | nil => intro s; rfl
  | cons v vs ih => intro s; exact ih _

/-- Running the loop of `sum` from the accumulator `s + t` gives `s` plus the
result of running it from `t`, in each component. -/
theorem sum_loop_add [AddSemigroup α] (B : List (vec3 α)) :
    ∀ s t : vec3 α,
      sum_loop ⟨s.x + t.x, s.y + t.y, s.z + t.z⟩ B =
        ⟨s.x + (sum_loop t B).x, s.y + (sum_loop t B).y, s.z + (sum_loop t B).z⟩ := by
  induction B with
  | nil => intro s t; rfl
  | cons v vs ih =>
    intro s t
    simp only [sum_loop, add_assoc]
    exact ih s ⟨t.x + v.x, t.y + v.y, t.z + v.z⟩

end SumTheorems

section RealTheorems

/-- The sum of squares under the square root of `mag`, over the reals. -/
theorem mag_sq_nonneg (v : vec3 ℝ) : 0 ≤ v.x * v.x + v.y * v.y + v.z * v.z := by
  nlinarith [mul_self_nonneg v.x, mul_self_nonneg v.y, mul_self_nonneg v.z]

theorem mag_mul_self (v : vec3 ℝ) :
    mag Real.sqrt v * mag Real.sqrt v = v.x * v.x + v.y * v.y + v.z * v.z :=
  Real.mul_self_sqrt (mag_sq_nonneg v)

/-- Scaling a vector of nonzero magnitude by the inverse of its magnitude gives
a vector of magnitude 1. -/
theorem mag_scale_inv (v : vec3 ℝ) (hv : mag Real.sqrt v ≠ 0) :
    mag Real.sqrt (scale v (1 / mag Real.sqrt v)) = 1 := by
  have hm := mag_mul_self v
  have h1 : (v.x * (1 / mag Real.sqrt v)) * (v.x * (1 / mag Real.sqrt v)) +
      (v.y * (1 / mag Real.sqrt v)) * (v.y * (1 / mag Real.sqrt v)) +
      (v.z * (1 / mag Real.sqrt v)) * (v.z * (1 / mag Real.sqrt v)) = 1 := by
    field_simp
    linarith
  show Real.sqrt _ = 1
  simp only [scale]
  rw [h1, Real.sqrt_one]

end RealTheorems

/-! ## Root mean square -/

section RmsTheorems

/-- The loop of `rms` over `n` copies of `c` adds `n * (c * c)` to the
accumulator. -/
theorem rms_loop_replicate (c : ℝ) (n : Nat) :
    ∀ ss : ℝ, rms_loop ss (List.replicate n c) = ss + n * (c * c) := by
  induction n with
  | zero => intro ss; simp [rms_loop]
  | succ n ih =>
    intro ss
    rw [List.replicate_succ, rms_loop, ih]
    push_cast
    ring

end RmsTheorems

/-! ## Projection on the gravity vector -/

section ProjectionTheorems

variable {α : Type} [Add α] [Mul α]

/-- C15: for every sample sequence `data` and direction `g`, the projection loop
of `main` produces a sequence of the length of `data` whose `i`-th element is
`dot data[i] g`, in the order of the samples. -/
theorem main_vert_spec (g : vec3 α) (data : List (vec3 α)) :
    (main_vert g data).length = data.length ∧
    (∀ (i : Nat) (h : i < data.length), (main_vert g data)[i]? = some (dot data[i] g)) ∧
    main_vert g data = data.map (fun d => dot d g) := by
  have hmap : main_vert g data = data.map (fun d => dot d g) := by
    induction data with
    | nil => rfl
    | cons d ds ih => simp only [main_vert, List.map_cons, ih]
  refine ⟨?_, ?_, hmap⟩
  · rw [hmap, List.length_map]
  · intro i h
    rw [hmap, List.getElem?_map, List.getElem?_eq_getElem h]
    rfl

end ProjectionTheorems

/-! ## Causality of the filter -/

section CausalTheorems

variable {α : Type} [Zero α] [Add α] [Mul α] [Sub α]

/-- The loop of `filter` over `x ++ t` writes what it writes over `x`, then
what it writes over `t` from the state the samples of `x` lead to. -/
theorem filter_loop_append (a b : List α) (x t : List α) :
    ∀ z : List α,
      filter_loop a b z (x ++ t) =
        filter_loop a b z x ++
          filter_loop a b (x.foldl (fun s v => (tdf2 8 a b s v).2) z) t := by
  induction x with
  | nil => intro z; rfl
  | cons v xs ih =>
    intro z
    show (tdf2 8 a b z v).1 :: filter_loop a b (tdf2 8 a b z v).2 (xs ++ t) = _
    rw [ih]
    rfl

variable [One α] [Neg α] [OfScientific α]

/-- C20: `filter` is causal: for all sequences `x` and `t`, the first
`length x` elements of `filter (x ++ t)` are `filter x`, so no output sample
depends on a later input sample. -/
theorem filter_causal (x t : List α) :
    (filter (x ++ t)).take x.length = filter x := by
  have hlen : (filter_loop filter_a filter_b filter_z x).length = x.length :=
    filter_loop_length _ _ x _
  simp only [filter, filter_loop_append]
  rw [← hlen, List.take_left']
  rfl

end CausalTheorems

/-! ## Constant input -/

section ConstantTheorems

/-- The loop of `sum` over `N` copies of `(1, 0, 0)` adds `N` to the `x`
component of the accumulator. -/
theorem sum_loop_replicate_unit (N : Nat) :
    ∀ s : vec3 ℝ,
      sum_loop s (List.replicate N (⟨1, 0, 0⟩ : vec3 ℝ)) = ⟨s.x + N, s.y, s.z⟩ := by
  induction N with
  | zero => intro s; simp [sum_loop]
  | succ N ih =>
    intro s
    rw [List.replicate_succ, sum_loop, ih]
    simp only [vec3.mk.injEq]
    refine ⟨?_, ?_, ?_⟩
    · push_cast; ring
    · ring
    · ring

theorem main_gravity_replicate_unit (N : Nat) (hN : 1 ≤ N) :
    main_gravity Real.sqrt (List.replicate N (⟨1, 0, 0⟩ : vec3 ℝ)) = ⟨1, 0, 0⟩ := by
  have hN0 : (N : ℝ) ≠ 0 := Nat.cast_ne_zero.mpr (by omega)
  have hm : Real.sqrt ((0 + (N : ℝ)) * (0 + (N : ℝ)) + 0 * 0 + 0 * 0) = N := by
    have e : (0 + (N : ℝ)) * (0 + (N : ℝ)) + 0 * 0 + 0 * 0 = (N : ℝ) * N := by ring
    rw [e, Real.sqrt_mul_self (Nat.cast_nonneg N)]
  simp only [main_gravity, sum, sum_loop_replicate_unit, mag, scale, hm, vec3.mk.injEq]
  refine ⟨?_, ?_, ?_⟩
  · field_simp
  · ring
  · ring

theorem main_vert_replicate_unit (N : Nat) :
    main_vert (⟨1, 0, 0⟩ : vec3 ℝ) (List.replicate N (⟨1, 0, 0⟩ : vec3 ℝ)) =
      List.replicate N 1 := by
  induction N with
  | zero => rfl
  | succ N ih =>
    rw [List.replicate_succ, main_vert, ih, List.replicate_succ]
    simp [dot]

/-- The preset state of `filter` is a fixed point of the order-8 `tdf2` step on
the input `1`, with output `0`. -/
theorem tdf2_preset_fixed :
    tdf2 8 filter_a filter_b filter_z (1 : ℝ) = (0, filter_z) := by
  simp only [tdf2, tdf2_loop, filter_a, filter_b, filter_z, List.getD_cons_zero,
    List.getD_cons_succ, List.set_cons_zero, List.set_cons_succ, Prod.mk.injEq,
    List.cons.injEq]
  norm_num

theorem filter_loop_ones (n : Nat) :
    filter_loop filter_a filter_b filter_z (List.replicate n (1 : ℝ)) =
      List.replicate n 0 := by
  induction n with
  | zero => rfl
  | succ n ih =>
    rw [List.replicate_succ, filter_loop, tdf2_preset_fixed, ih, List.replicate_succ]

theorem count_steps_loop_zeros (n : Nat) (c : Nat) :
    count_steps_loop (0 : ℝ) (-0) (List.replicate n 0) State.UP c = c := by
  induction n with
  | zero => rfl
  | succ n ih =>
    have h : ¬ ((0 : ℝ) > 0) := lt_irrefl 0
    rw [List.replicate_succ, count_steps_loop, if_neg h, ih]

end ConstantTheorems

/-! ## The difference equation of the filter step -/

section RunTheorems

variable {α : Type} [Zero α] [Add α] [Mul α] [Sub α]

theorem tdf2_state_length (K : Nat) (a b z : List α) (x : α) :
    (tdf2 K a b z x).2.length = z.length := by
  by_cases h : K = 0
  · simp only [tdf2, if_pos h]
  · simp only [tdf2, if_neg h, List.length_set, tdf2_loop_length]

theorem tdf2_foldl_length (K : Nat) (a b : List α) (xs : List α) :
    ∀ z : List α, (xs.foldl (fun s v => (tdf2 K a b s v).2) z).length = z.length := by
  induction xs with
  | nil => intro z; rfl
  | cons v vs ih => intro z; rw [List.foldl_cons, ih, tdf2_state_length]

theorem tdf2_run_length (K : Nat) (a b : List α) (xs : List α) :
    ∀ z : List α, (tdf2_run K a b z xs).length = xs.length := by
  induction xs with
  | nil => intro z; rfl
  | cons v vs ih => intro z; simp [tdf2_run, ih]

theorem tdf2_run_getD (K : Nat) (a b : List α) (xs : List α) :
    ∀ (z : List α) (n : Nat), n < xs.length →
      (tdf2_run K a b z xs).getD n 0 =
        (tdf2 K a b ((xs.take n).foldl (fun s v => (tdf2 K a b s v).2) z) (xs.getD n 0)).1 := by
  induction xs with
  | nil => intro z n h; simp at h
  | cons v vs ih =>
    intro z n h
    cases n with
    | zero => rfl
    | succ m =>
      have hm : m < vs.length := by simpa using h
      simp only [tdf2_run, List.getD_cons_succ, List.take_succ_cons, List.foldl_cons]
      exact ih _ m hm

omit [Add α] [Mul α] [Sub α] in
theorem foldl_take_succ {β : Type} (f : β → α → β) (xs : List α) (z : β) (n : Nat)
    (h : n < xs.length) :
    (xs.take (n + 1)).foldl f z = f ((xs.take n).foldl f z) (xs.getD n 0) := by
  rw [List.take_succ, List.foldl_append, List.getElem?_eq_getElem h, List.getD_eq_getElem _ _ h]
  rfl

end RunTheorems

section DifferenceEquation

variable {α : Type} [Ring α]

theorem tdf2_state_getD (K : Nat) (a b z : List α) (x : α) (hK : 1 ≤ K)
    (hz : z.length = K) (j : Nat) :
    (tdf2 K a b z x).2.getD j 0 =
      if j < K then
        b.getD (j + 1) 0 * x + z.getD (j + 1) 0 - a.getD (j + 1) 0 * (tdf2 K a b z x).1
      else 0 := by
  have hK0 : K ≠ 0 := by omega
  simp only [tdf2, if_neg hK0]
  rw [getD_set, tdf2_loop_getD _ _ _ _ _ _ _ _ (le_refl 1), tdf2_loop_length]
  by_cases h1 : K - 1 = j ∧ j < z.length
  · have h2 : j < K := by omega
    have h3 : j + 1 = K := by omega
    have h4 : z.getD K 0 = 0 := List.getD_eq_default _ _ (by omega)
    rw [if_pos h1, if_pos h2, h3, h4, add_zero]
  · rw [if_neg h1]
    by_cases h2 : j < K
    · have h3 : 1 - 1 ≤ j ∧ j < 1 - 1 + (K - 1) ∧ j < z.length := by omega
      rw [if_pos h3, if_pos h2]
    · have h3 : ¬ (1 - 1 ≤ j ∧ j < 1 - 1 + (K - 1) ∧ j < z.length) := by omega
      rw [if_neg h3, if_neg h2]
      exact List.getD_eq_default _ _ (by omega)

/-- After `n` samples from the all-zero state, cell `j` of the state holds the
part of the difference equation that the coming outputs still owe to the
samples and outputs already seen. -/
theorem tdf2_state_sum (K : Nat) (a b xs : List α) (hK : 1 ≤ K) (n : Nat) :
    n ≤ xs.length → ∀ j : Nat,
      ((xs.take n).foldl (fun s v => (tdf2 K a b s v).2) (List.replicate K 0)).getD j 0 =
        ∑ m ∈ Finset.range (K - j),
          if m < n then
            b.getD (j + 1 + m) 0 * xs.getD (n - 1 - m) 0 -
              a.getD (j + 1 + m) 0 *
                (tdf2_run K a b (List.replicate K 0) xs).getD (n - 1 - m) 0
          else 0 := by
  induction n with
  | zero =>
    intro _ j
    simp only [List.take_zero, List.foldl_nil, List.getD_eq_getElem?_getD,
      List.getElem?_replicate, Nat.not_lt_zero, if_false, Finset.sum_const_zero]
    split <;> rfl
  | succ n ih =>
    intro hn j
    have hn1 : n < xs.length := by omega
    have hlen : ((xs.take n).foldl (fun s v => (tdf2 K a b s v).2)
        (List.replicate K 0)).length = K := by
      rw [tdf2_foldl_length, List.length_replicate]
    rw [foldl_take_succ _ _ _ n hn1, tdf2_state_getD K a b _ _ hK hlen j,
      ← tdf2_run_getD K a b xs _ n hn1]
    by_cases hj : j < K
    · have hKj : K - j = (K - (j + 1)) + 1 := by omega
      rw [if_pos hj, ih (by omega) (j + 1), hKj, Finset.sum_range_succ']
      have hterm : ∀ m ∈ Finset.range (K - (j + 1)),
          (if m + 1 < n + 1 then
            b.getD (j + 1 + (m + 1)) 0 * xs.getD (n + 1 - 1 - (m + 1)) 0 -
              a.getD (j + 1 + (m + 1)) 0 *
                (tdf2_run K a b (List.replicate K 0) xs).getD (n + 1 - 1 - (m + 1)) 0
          else 0) =
          (if m < n then
            b.getD (j + 1 + 1 + m) 0 * xs.getD (n - 1 - m) 0 -
              a.getD (j + 1 + 1 + m) 0 *
                (tdf2_run K a b (List.replicate K 0) xs).getD (n - 1 - m) 0
          else 0) := by
        intro m _
        have e1 : j + 1 + (m + 1) = j + 1 + 1 + m := by omega
        have e2 : n + 1 - 1 - (m + 1) = n - 1 - m := by omega
        rw [e1, e2]
        by_cases hm : m < n
        · rw [if_pos hm, if_pos (by omega)]
        · rw [if_neg hm, if_neg (by omega)]
      rw [Finset.sum_congr rfl hterm, if_pos (Nat.succ_pos n)]
      simp only [Nat.add_zero, Nat.add_sub_cancel, Nat.sub_zero]
      abel
    · have hKj : K - j = 0 := by omega
      rw [if_neg hj, hKj, Finset.sum_range_zero]

end DifferenceEquation
/-! ## The step counter counts the most excursions -/

section ExcursionTheorems

variable {α : Type} [LT α] [DecidableRel (fun (u w : α) => u < w)]

/-- The count the loop of `count_steps` returns is the count it starts from plus
what it counts from 0. -/
theorem count_steps_loop_add (hi lo : α) (x : List α) :
    ∀ (st : State) (c : Nat),
      count_steps_loop hi lo x st c = count_steps_loop hi lo x st 0 + c := by
  induction x with
  | nil => intro st c; cases st <;> simp [count_steps_loop]
  | cons v xs ih =>
    intro st c
    cases st with
    | UP =>
      by_cases h : v > hi
      · simp only [count_steps_loop, if_pos h]; exact ih _ _
      · simp only [count_steps_loop, if_neg h]; exact ih _ _
    | DOWN =>
      by_cases h : v < lo
      · simp only [count_steps_loop, if_pos h]
        rw [ih State.UP (c + 1), ih State.UP (0 + 1)]
        omega
      · simp only [count_steps_loop, if_neg h]; exact ih _ _

/-- Starting in `DOWN` counts at least as much as starting in `UP`, and at most
one more. -/
theorem count_steps_loop_up_down (hi lo : α) (x : List α) :
    count_steps_loop hi lo x State.UP 0 ≤ count_steps_loop hi lo x State.DOWN 0 ∧
    count_steps_loop hi lo x State.DOWN 0 ≤ count_steps_loop hi lo x State.UP 0 + 1 := by
  induction x with
  | nil => simp [count_steps_loop]
  | cons v xs ih =>
    have h1 := count_steps_loop_add hi lo xs State.UP (0 + 1)
    by_cases hh : v > hi <;> by_cases hl : v < lo <;>
      simp only [count_steps_loop, hh, hl, if_true, if_false] <;> omega

/-- A sample in front never lowers the count. -/
theorem count_steps_loop_cons_ge (hi lo : α) (v : α) (xs : List α) (st : State) :
    count_steps_loop hi lo xs st 0 ≤ count_steps_loop hi lo (v :: xs) st 0 := by
  have h1 := count_steps_loop_add hi lo xs State.UP (0 + 1)
  have h2 := count_steps_loop_up_down hi lo xs
  cases st with
  | UP =>
    by_cases hh : v > hi <;> simp only [count_steps_loop, hh, if_true, if_false] <;> omega
  | DOWN =>
    by_cases hl : v < lo <;> simp only [count_steps_loop, hl, if_true, if_false] <;> omega

theorem count_steps_loop_drop_le (hi lo : α) (st : State) (x : List α) :
    ∀ p : Nat, count_steps_loop hi lo (x.drop p) st 0 ≤ count_steps_loop hi lo x st 0 := by
  induction x with
  | nil => intro p; simp
  | cons v xs ih =>
    intro p
    cases p with
    | zero => exact le_refl _
    | succ p =>
      exact le_trans (ih p) (count_steps_loop_cons_ge hi lo v xs st)

theorem count_steps_loop_drop_mono (hi lo : α) (st : State) (x : List α) (p q : Nat)
    (hpq : p ≤ q) :
    count_steps_loop hi lo (x.drop q) st 0 ≤ count_steps_loop hi lo (x.drop p) st 0 := by
  have h := count_steps_loop_drop_le hi lo st (x.drop p) (q - p)
  rw [List.drop_drop] at h
  have e : p + (q - p) = q := by omega
  rw [e] at h
  exact h

theorem drop_of_getElem? {β : Type} (x : List β) (i : Nat) (u : β) (h : x[i]? = some u) :
    x.drop i = u :: x.drop (i + 1) := by
  obtain ⟨hi, hu⟩ := List.getElem?_eq_some.mp h
  rw [List.drop_eq_getElem_cons hi, hu]

/-- At a value above `hi`, the loop in `UP` goes on in `DOWN`. -/
theorem count_steps_loop_at_high (hi lo : α) (x : List α) (i : Nat) (u : α)
    (h : x[i]? = some u) (hu : u > hi) :
    count_steps_loop hi lo (x.drop i) State.UP 0 =
      count_steps_loop hi lo (x.drop (i + 1)) State.DOWN 0 := by
  rw [drop_of_getElem? x i u h, count_steps_loop, if_pos hu]

/-- At a value below `lo`, the loop in `DOWN` counts one step and goes on in
`UP`. -/
theorem count_steps_loop_at_low (hi lo : α) (x : List α) (j : Nat) (w : α)
    (h : x[j]? = some w) (hw : w < lo) :
    count_steps_loop hi lo (x.drop j) State.DOWN 0 =
      count_steps_loop hi lo (x.drop (j + 1)) State.UP 0 + 1 := by
  rw [drop_of_getElem? x j w h, count_steps_loop, if_pos hw]
  exact count_steps_loop_add hi lo _ State.UP (0 + 1)

/-- No family of excursions that starts at or after index `p` has more pairs
than the loop counts from index `p`. -/
theorem excursions_length_le (hi lo : α) (x : List α) (ps : List (Nat × Nat)) :
    ∀ p : Nat, excursions hi lo x ps → (∀ q ∈ ps, p ≤ q.1) →
      ps.length ≤ count_steps_loop hi lo (x.drop p) State.UP 0 := by
  induction ps with
  | nil => intro p _ _; exact Nat.zero_le _
  | cons r rest ih =>
    intro p hex hp
    obtain ⟨hpw, hall⟩ := hex
    obtain ⟨hrel, hrest⟩ := List.pairwise_cons.mp hpw
    obtain ⟨hij, u, w, hu, hw, hhi, hlo⟩ := hall r (List.mem_cons_self r rest)
    have hrest_ex : excursions hi lo x rest :=
      ⟨hrest, fun q hq => hall q (List.mem_cons_of_mem r hq)⟩
    have h1 := ih (r.2 + 1) hrest_ex (fun q hq => hrel q hq)
    have h2 := count_steps_loop_drop_mono hi lo State.UP x p r.1
      (hp r (List.mem_cons_self r rest))
    have h3 := count_steps_loop_at_high hi lo x r.1 u hu hhi
    have h4 := count_steps_loop_drop_mono hi lo State.DOWN x (r.1 + 1) r.2 hij
    have h5 := count_steps_loop_at_low hi lo x r.2 w hw hlo
    simp only [List.length_cons]
    omega

/-- From `DOWN`, a positive count has a first value below `lo`, after which the
loop goes on in `UP` with one step counted. -/
theorem count_steps_loop_first_low (hi lo : α) (y : List α) :
    1 ≤ count_steps_loop hi lo y State.DOWN 0 →
      ∃ (j : Nat) (w : α), y[j]? = some w ∧ w < lo ∧
        count_steps_loop hi lo y State.DOWN 0 =
          count_steps_loop hi lo (y.drop (j + 1)) State.UP 0 + 1 := by
  induction y with
  | nil => intro h; simp [count_steps_loop] at h
  | cons v xs ih =>
    intro h
    by_cases hl : v < lo
    · refine ⟨0, v, List.getElem?_cons_zero, hl, ?_⟩
      simp only [count_steps_loop, if_pos hl]
      exact count_steps_loop_add hi lo _ State.UP (0 + 1)
    · simp only [count_steps_loop, if_neg hl] at h ⊢
      obtain ⟨j, w, hw, hlo, he⟩ := ih h
      exact ⟨j + 1, w, by simpa using hw, hlo, he⟩

/-- From `UP`, a positive count has a first excursion, after which the loop goes
on in `UP` with one step counted. -/
theorem count_steps_loop_first_excursion (hi lo : α) (y : List α) :
    1 ≤ count_steps_loop hi lo y State.UP 0 →
      ∃ (i j : Nat) (u w : α), i < j ∧ y[i]? = some u ∧ y[j]? = some w ∧ u > hi ∧ w < lo ∧
        count_steps_loop hi lo y State.UP 0 =
          count_steps_loop hi lo (y.drop (j + 1)) State.UP 0 + 1 := by
  induction y with
  | nil => intro h; simp [count_steps_loop] at h
  | cons v xs ih =>
    intro h
    by_cases hh : v > hi
    · simp only [count_steps_loop, if_pos hh] at h ⊢
      obtain ⟨j, w, hw, hlo, he⟩ := count_steps_loop_first_low hi lo xs h
      exact ⟨0, j + 1, v, w, Nat.succ_pos j, List.getElem?_cons_zero, by simpa using hw, hh,
        hlo, he⟩
    · simp only [count_steps_loop, if_neg hh] at h ⊢
      obtain ⟨i, j, u, w, hij, hu, hw, hhi, hlo, he⟩ := ih h
      exact ⟨i + 1, j + 1, u, w, Nat.succ_lt_succ hij, by simpa using hu,
        by simpa using hw, hhi, hlo, he⟩

/-- The loop started at index `p` finds as many excursions as it counts, all
of them at or after `p`. -/
theorem excursions_of_count (hi lo : α) (x : List α) (c : Nat) :
    ∀ p : Nat, count_steps_loop hi lo (x.drop p) State.UP 0 = c →
      ∃ ps : List (Nat × Nat),
        ps.length = c ∧ excursions hi lo x ps ∧ ∀ q ∈ ps, p ≤ q.1 := by
  induction c with
  | zero =>
    intro p _
    exact ⟨[], rfl, ⟨List.Pairwise.nil, fun q hq => absurd hq (List.not_mem_nil q)⟩,
      fun q hq => absurd hq (List.not_mem_nil q)⟩
  | succ c ih =>
    intro p hc
    obtain ⟨i, j, u, w, hij, hu, hw, hhi, hlo, he⟩ :=
      count_steps_loop_first_excursion hi lo (x.drop p) (by omega)
    rw [List.getElem?_drop] at hu hw
    rw [List.drop_drop] at he
    obtain ⟨ps, hlen, ⟨hpw, hall⟩, hge⟩ := ih (p + (j + 1)) (by omega)
    refine ⟨(p + i, p + j) :: ps, by simp [hlen], ⟨?_, ?_⟩, ?_⟩
    · refine List.pairwise_cons.mpr ⟨fun q hq => ?_, hpw⟩
      have := hge q hq
      show p + j < q.1
      omega
    · intro q hq
      rcases List.mem_cons.mp hq with rfl | hq
      · exact ⟨by show p + i < p + j; omega, u, w, hu, hw, hhi, hlo⟩
      · exact hall q hq
    · intro q hq
      rcases List.mem_cons.mp hq with rfl | hq
      · show p ≤ p + i
        omega
      · have := hge q hq
        omega

/-- Each counted step uses up two samples. -/
theorem count_steps_loop_two_le (hi lo : α) (x : List α) :
    2 * count_steps_loop hi lo x State.UP 0 ≤ x.length ∧
    2 * count_steps_loop hi lo x State.DOWN 0 ≤ x.length + 1 := by
  induction x with
  | nil => simp [count_steps_loop]
  | cons v xs ih =>
    have h1 := count_steps_loop_add hi lo xs State.UP (0 + 1)
    by_cases hh : v > hi <;> by_cases hl : v < lo <;>
      simp only [count_steps_loop, hh, hl, if_true, if_false, List.length_cons] <;> omega

/-- C18: for every sequence `x` and thresholds `hi`, `lo`, `count_steps x hi lo`
is the largest `k` for which there are indices
`i_1 < j_1 < i_2 < j_2 < ... < i_k < j_k` with `x[i_m] > hi` and `x[j_m] < lo`
for every `m`: such a family of `count_steps x hi lo` pairs exists, no such
family has more pairs, and the count is at most `length x / 2`. -/
theorem count_steps_max_excursions (x : List α) (hi lo : α) :
    (∃ ps : List (Nat × Nat), ps.length = count_steps x hi lo ∧ excursions hi lo x ps) ∧
    (∀ ps : List (Nat × Nat), excursions hi lo x ps → ps.length ≤ count_steps x hi lo) ∧
    count_steps x hi lo ≤ x.length / 2 := by
  refine ⟨?_, ?_, ?_⟩
  · obtain ⟨ps, hlen, hex, _⟩ := excursions_of_count hi lo x _ 0 rfl
    exact ⟨ps, hlen, hex⟩
  · intro ps hex
    exact excursions_length_le hi lo x ps 0 hex (fun q _ => Nat.zero_le _)
  · have h := (count_steps_loop_two_le hi lo x).1
    show count_steps_loop hi lo x State.UP 0 ≤ x.length / 2
    omega

end ExcursionTheorems

/-! ## Arithmetic of doubles with infinities and NaN -/

section XDoubleTheorems

variable {K : Type} [LinearOrderedField K]

theorem XDouble.fin_add (p q : K) : XDouble.fin p + XDouble.fin q = XDouble.fin (p + q) := rfl

theorem XDouble.fin_mul (p q : K) : XDouble.fin p * XDouble.fin q = XDouble.fin (p * q) := rfl

theorem XDouble.fin_sub (p q : K) : XDouble.fin p - XDouble.fin q = XDouble.fin (p - q) := by
  show XDouble.fin (p + -q) = XDouble.fin (p - q)
  rw [sub_eq_add_neg]

theorem XDouble.fin_div (p q : K) (h : q ≠ 0) :
    XDouble.fin p / XDouble.fin q = XDouble.fin (p / q) := by
  show XDouble.div (XDouble.fin p) (XDouble.fin q) = _
  rw [XDouble.div, if_neg h]

theorem XDouble.fin_div_zero (p : K) :
    XDouble.fin p / XDouble.fin 0 = XDouble.infmul p := by
  show XDouble.div (XDouble.fin p) (XDouble.fin 0) = _
  rw [XDouble.div, if_pos rfl]

theorem XDouble.fin_mul_pinf (p : K) :
    XDouble.fin p * XDouble.pinf = XDouble.infmul p := rfl

theorem XDouble.sqrt_fin (f : K → K) (q : K) (h : 0 ≤ q) :
    XDouble.sqrt f (XDouble.fin q) = XDouble.fin (f q) := by
  rw [XDouble.sqrt, if_neg (not_lt_of_ge h)]

theorem XDouble.fin_lt (p q : K) : XDouble.fin p < XDouble.fin q ↔ p < q := by
  show XDouble.blt (XDouble.fin p) (XDouble.fin q) = true ↔ p < q
  simp [XDouble.blt]

theorem XDouble.fin_le (p q : K) : XDouble.fin p ≤ XDouble.fin q ↔ p ≤ q := by
  show XDouble.ble (XDouble.fin p) (XDouble.fin q) = true ↔ p ≤ q
  simp [XDouble.ble]

theorem XDouble.nan_add (x : XDouble K) : XDouble.nan + x = XDouble.nan := by
  cases x <;> rfl

theorem XDouble.add_nan (x : XDouble K) : x + XDouble.nan = XDouble.nan := by
  cases x <;> rfl

theorem XDouble.nan_mul (x : XDouble K) : XDouble.nan * x = XDouble.nan := by
  cases x <;> rfl

theorem XDouble.mul_nan (x : XDouble K) : x * XDouble.nan = XDouble.nan := by
  cases x <;> rfl

theorem XDouble.nan_div (x : XDouble K) : XDouble.nan / x = XDouble.nan := by
  cases x <;> rfl

theorem XDouble.not_le_nan (x : XDouble K) : ¬ (x ≤ XDouble.nan) := by
  cases x <;> exact Bool.false_ne_true

/-! ### Finite values without a division by zero

On finite values the functions of the program compute in `XDouble K` what they
compute in `K`, as long as no divisor is `0`. -/

theorem getD_map_fin (l : List K) (i : Nat) :
    (l.map XDouble.fin).getD i 0 = XDouble.fin (l.getD i 0) := by
  simp only [List.getD_eq_getElem?_getD, List.getElem?_map]
  cases l[i]? <;> rfl

theorem sum_loop_toXDouble (vs : List (vec3 K)) :
    ∀ s : vec3 K,
      sum_loop s.toXDouble (vs.map vec3.toXDouble) = (sum_loop s vs).toXDouble := by
  induction vs with
  | nil => intro s; rfl
  | cons v vs ih =>
    intro s
    exact ih ⟨s.x + v.x, s.y + v.y, s.z + v.z⟩

theorem sum_toXDouble (vs : List (vec3 K)) :
    sum (vs.map vec3.toXDouble) = (sum vs).toXDouble :=
  sum_loop_toXDouble vs ⟨0, 0, 0⟩

theorem mag_toXDouble (f : K → K) (v : vec3 K) :
    mag (XDouble.sqrt f) v.toXDouble = XDouble.fin (mag f v) := by
  have h : 0 ≤ v.x * v.x + v.y * v.y + v.z * v.z := by
    nlinarith [mul_self_nonneg v.x, mul_self_nonneg v.y, mul_self_nonneg v.z]
  exact XDouble.sqrt_fin f _ h

theorem main_gravity_toXDouble (f : K → K) (data : List (vec3 K))
    (h : mag f (sum data) ≠ 0) :
    main_gravity (XDouble.sqrt f) (data.map vec3.toXDouble) =
      (main_gravity f data).toXDouble := by
  simp only [main_gravity, sum_toXDouble, mag_toXDouble]
  have h1 : (1 : XDouble K) / XDouble.fin (mag f (sum data)) =
      XDouble.fin (1 / mag f (sum data)) := XDouble.fin_div 1 _ h
  rw [h1]
  rfl

theorem main_vert_toXDouble (g : vec3 K) (data : List (vec3 K)) :
    main_vert g.toXDouble (data.map vec3.toXDouble) =
      (main_vert g data).map XDouble.fin := by
  induction data with
  | nil => rfl
  | cons d ds ih =>
    rw [List.map_cons, main_vert, ih]
    rfl

theorem tdf2_loop_fin (a b : List K) (x y : K) (n : Nat) :
    ∀ (i : Nat) (z : List K),
      tdf2_loop (a.map XDouble.fin) (b.map XDouble.fin) (XDouble.fin x) (XDouble.fin y) n i
          (z.map XDouble.fin) =
        (tdf2_loop a b x y n i z).map XDouble.fin := by
  induction n with
  | zero => intro i z; rfl
  | succ n ih =>
    intro i z
    rw [tdf2_loop, tdf2_loop, ← ih]
    simp only [getD_map_fin, XDouble.fin_mul, XDouble.fin_add, XDouble.fin_sub, List.map_set]

theorem tdf2_fin (ord : Nat) (a b z : List K) (x : K) :
    tdf2 ord (a.map XDouble.fin) (b.map XDouble.fin) (z.map XDouble.fin) (XDouble.fin x) =
      (XDouble.fin (tdf2 ord a b z x).1, (tdf2 ord a b z x).2.map XDouble.fin) := by
  by_cases h : ord = 0
  · simp only [tdf2, if_pos h, getD_map_fin, XDouble.fin_mul]
  · simp only [tdf2, if_neg h, getD_map_fin, XDouble.fin_mul, XDouble.fin_add,
      XDouble.fin_sub, tdf2_loop_fin, List.map_set]

theorem filter_loop_fin (a b : List K) (x : List K) :
    ∀ z : List K,
      filter_loop (a.map XDouble.fin) (b.map XDouble.fin) (z.map XDouble.fin)
          (x.map XDouble.fin) =
        (filter_loop a b z x).map XDouble.fin := by
  induction x with
  | nil => intro z; rfl
  | cons v vs ih =>
    intro z
    rw [List.map_cons, filter_loop, tdf2_fin, ih]
    rfl

theorem filter_fin (x : List K) :
    filter (x.map XDouble.fin) = (filter x).map XDouble.fin :=
  filter_loop_fin filter_a filter_b x filter_z

theorem rms_loop_fin (x : List K) :
    ∀ ss : K, rms_loop (XDouble.fin ss) (x.map XDouble.fin) = XDouble.fin (rms_loop ss x) := by
  induction x with
  | nil => intro ss; rfl
  | cons v vs ih => intro ss; exact ih (ss + v * v)

theorem rms_loop_nonneg (x : List K) : ∀ ss : K, 0 ≤ ss → 0 ≤ rms_loop ss x := by
  induction x with
  | nil => intro ss h; exact h
  | cons v vs ih => intro ss h; exact ih _ (add_nonneg h (mul_self_nonneg v))

theorem rms_fin (f : K → K) (x : List K) (hx : x ≠ []) :
    rms (XDouble.sqrt f) (x.map XDouble.fin) = XDouble.fin (rms f x) := by
  have hn : ((x.length : Nat) : K) ≠ 0 :=
    Nat.cast_ne_zero.mpr (fun h => hx (List.length_eq_zero.mp h))
  have hq : 0 ≤ rms_loop 0 x / (x.length : K) :=
    div_nonneg (rms_loop_nonneg x 0 (le_refl 0)) (Nat.cast_nonneg _)
  have h1 : rms_loop (0 : XDouble K) (x.map XDouble.fin) = XDouble.fin (rms_loop 0 x) :=
    rms_loop_fin x 0
  have h2 : ((x.map XDouble.fin).length : XDouble K) = XDouble.fin (x.length : K) := by
    rw [List.length_map]
    rfl
  simp only [rms]
  rw [h1, h2, XDouble.fin_div _ _ hn, XDouble.sqrt_fin f _ hq]

end XDoubleTheorems

/-! ## Degenerate inputs: zero gravity sum and empty sequences -/

section DegenerateTheorems

variable {K : Type} [LinearOrderedField K]

theorem count_steps_loop_fin (hi lo : K) (x : List K) :
    ∀ (st : State) (c : Nat),
      count_steps_loop (XDouble.fin hi) (XDouble.fin lo) (x.map XDouble.fin) st c =
        count_steps_loop hi lo x st c := by
  induction x with
  | nil => intro st c; cases st <;> rfl
  | cons v vs ih =>
    intro st c
    cases st with
    | UP =>
      by_cases h : v > hi
      · have h1 : XDouble.fin v > XDouble.fin hi := (XDouble.fin_lt hi v).mpr h
        simp only [List.map_cons, count_steps_loop, if_pos h, if_pos h1, ih]
      · have h1 : ¬ XDouble.fin v > XDouble.fin hi := fun hh => h ((XDouble.fin_lt hi v).mp hh)
        simp only [List.map_cons, count_steps_loop, if_neg h, if_neg h1, ih]
    | DOWN =>
      by_cases h : v < lo
      · have h1 : XDouble.fin v < XDouble.fin lo := (XDouble.fin_lt v lo).mpr h
        simp only [List.map_cons, count_steps_loop, if_pos h, if_pos h1, ih]
      · have h1 : ¬ XDouble.fin v < XDouble.fin lo := fun hh => h ((XDouble.fin_lt v lo).mp hh)
        simp only [List.map_cons, count_steps_loop, if_neg h, if_neg h1, ih]

theorem main_vert_length {α : Type} [Add α] [Mul α] (g : vec3 α) (data : List (vec3 α)) :
    (main_vert g data).length = data.length := by
  induction data with
  | nil => rfl
  | cons d ds ih => simp only [main_vert, List.length_cons, ih]

/-- On finite samples whose sum has nonzero magnitude, `main` computes in
`XDouble K` the values it computes in `K`: no division by zero occurs. -/
theorem main_toXDouble (f : K → K) (data : List (vec3 K)) (hne : data ≠ [])
    (h : mag f (sum data) ≠ 0) :
    (main (XDouble.sqrt f) (data.map vec3.toXDouble)).g = (main f data).g.toXDouble ∧
    (main (XDouble.sqrt f) (data.map vec3.toXDouble)).vert =
      (main f data).vert.map XDouble.fin ∧
    (main (XDouble.sqrt f) (data.map vec3.toXDouble)).filtered =
      (main f data).filtered.map XDouble.fin ∧
    (main (XDouble.sqrt f) (data.map vec3.toXDouble)).rms_val =
      XDouble.fin (main f data).rms_val ∧
    (main (XDouble.sqrt f) (data.map vec3.toXDouble)).threshold =
      XDouble.fin (main f data).threshold ∧
    (main (XDouble.sqrt f) (data.map vec3.toXDouble)).cnt = (main f data).cnt := by
  have hg := main_gravity_toXDouble f data h
  have hfl : filter (main_vert (main_gravity f data) data) ≠ [] := by
    intro h0
    have hl : (filter (main_vert (main_gravity f data) data)).length = data.length := by
      rw [filter, filter_loop_length, main_vert_length]
    rw [h0] at hl
    exact hne (List.length_eq_zero.mp hl.symm)
  have hv : main_vert (main_gravity (XDouble.sqrt f) (data.map vec3.toXDouble))
      (data.map vec3.toXDouble) = (main_vert (main_gravity f data) data).map XDouble.fin := by
    rw [hg, main_vert_toXDouble]
  have hfi : filter (main_vert (main_gravity (XDouble.sqrt f) (data.map vec3.toXDouble))
      (data.map vec3.toXDouble)) =
      (filter (main_vert (main_gravity f data) data)).map XDouble.fin := by
    rw [hv, filter_fin]
  have hr : rms (XDouble.sqrt f) (filter (main_vert
      (main_gravity (XDouble.sqrt f) (data.map vec3.toXDouble)) (data.map vec3.toXDouble))) =
      XDouble.fin (rms f (filter (main_vert (main_gravity f data) data))) := by
    rw [hfi, rms_fin f _ hfl]
  refine ⟨hg, hv, hfi, hr, ?_, ?_⟩
  · show rms (XDouble.sqrt f) _ * 0.5 = _
    rw [hr]
    rfl
  · show count_steps _ (rms (XDouble.sqrt f) _ * 0.5) (-(rms (XDouble.sqrt f) _ * 0.5)) = _
    rw [hr, hfi]
    exact count_steps_loop_fin _ _ _ State.UP 0

/-- On finite samples whose sum is the zero vector, the quotient `1/m` of
`main` is `1/0` and each component `0 * (1/0)` of the gravity vector is NaN. -/
theorem main_gravity_nan (f : K → K) (hf : f 0 = 0) (data : List (vec3 K))
    (hs : sum data = ⟨0, 0, 0⟩) :
    main_gravity (XDouble.sqrt f) (data.map vec3.toXDouble) =
      ⟨XDouble.nan, XDouble.nan, XDouble.nan⟩ := by
  have hm : mag f (⟨0, 0, 0⟩ : vec3 K) = 0 := by
    simp only [mag, mul_zero, add_zero, hf]
  have h1 : (1 : XDouble K) / XDouble.fin 0 = XDouble.pinf := by
    rw [show (1 : XDouble K) = XDouble.fin 1 from rfl, XDouble.fin_div_zero]
    simp [XDouble.infmul]
  have h2 : XDouble.fin (0 : K) * XDouble.pinf = XDouble.nan := by
    rw [XDouble.fin_mul_pinf]
    simp [XDouble.infmul]
  show scale (sum (data.map vec3.toXDouble))
      (1 / mag (XDouble.sqrt f) (sum (data.map vec3.toXDouble))) = _
  rw [sum_toXDouble, mag_toXDouble, hs, hm, h1]
  simp only [scale, vec3.toXDouble, h2]

theorem rms_loop_nan (x : List (XDouble K)) : rms_loop XDouble.nan x = XDouble.nan := by
  induction x with
  | nil => rfl
  | cons v vs ih => rw [rms_loop, XDouble.nan_add, ih]

theorem tdf2_nan_fst (ord : Nat) (a b z : List (XDouble K)) :
    (tdf2 ord a b z XDouble.nan).1 = XDouble.nan := by
  by_cases h : ord = 0
  · simp only [tdf2, if_pos h, XDouble.mul_nan]
  · simp only [tdf2, if_neg h, XDouble.mul_nan, XDouble.nan_add]

/-- On a non-empty sequence of finite samples whose sum is the zero vector,
every value `main` derives from the gravity vector is NaN, the threshold
included. -/
theorem main_threshold_nan (f : K → K) (hf : f 0 = 0) (data : List (vec3 K))
    (hne : data ≠ []) (hs : sum data = ⟨0, 0, 0⟩) :
    (main (XDouble.sqrt f) (data.map vec3.toXDouble)).threshold = XDouble.nan := by
  obtain ⟨d, ds, rfl⟩ := List.exists_cons_of_ne_nil hne
  have hg := main_gravity_nan f hf (d :: ds) hs
  show rms (XDouble.sqrt f) (filter (main_vert (main_gravity (XDouble.sqrt f) _) _)) * 0.5 = _
  rw [hg]
  have hv : main_vert (⟨XDouble.nan, XDouble.nan, XDouble.nan⟩ : vec3 (XDouble K))
      ((d :: ds).map vec3.toXDouble) =
      XDouble.nan :: main_vert ⟨XDouble.nan, XDouble.nan, XDouble.nan⟩
        (ds.map vec3.toXDouble) := by
    rw [List.map_cons, main_vert]
    simp only [dot, XDouble.mul_nan, XDouble.nan_add]
  rw [hv, filter, filter_loop, tdf2_nan_fst, rms, rms_loop, XDouble.nan_mul,
    XDouble.add_nan, rms_loop_nan, XDouble.nan_div]
  rfl

end DegenerateTheorems

/-! ## The thresholds of the step counter -/

section ThresholdTheorems

end ThresholdTheorems

end Accel
